import Mathlib

/-!
Verification of the catalog synchronization, batching, and resilient
execution engine of the linguci repository (src/linguci.js).

A gettext-parser PO object is modelled shallowly: a catalog is an ordered
association list from context name to context; a context is an ordered
association list from msgid to entry.  JavaScript objects keep string keys
in insertion order, assignment to a present key updates it in place and
assignment to an absent key appends it; the association-list operations
below reproduce exactly that behaviour.  Zod schemas are modelled by the
list of msgids they require (`z.object` with exactly those keys, each a
required string).  The provider call is modelled as an oracle giving the
outcome of each attempt; configuration values (`batchSize`,
`languageConcurrency`, `maxRetries`) are natural numbers, validated
positive / non-negative by the external configuration collaborator.
-/

namespace Linguci

/-- One translatable unit of a PO catalog: the `msgstr` translated forms,
plus the remaining fields of the gettext-parser entry (msgid, comments,
flags, ...), carried opaquely and copied verbatim by `\x7b ...e \x7d` spreads. -/
structure Entry where
  msgstr : List String
  meta : String
deriving DecidableEq

/-- A context: ordered mapping from msgid to entry (a JavaScript object). -/
abbrev Context := List (String × Entry)

/-- A catalog's `translations` table: ordered mapping from context name to
context. -/
abbrev Catalog := List (String × Context)

/-- JavaScript property read `o[k]`: the value at the first occurrence of
the key, if present. -/
def lookupA {α : Type} : List (String × α) → String → Option α
  | [], _ => none
  | (k', v) :: rest, k => if k' = k then some v else lookupA rest k

/-- JavaScript property write `o[k] = v` when `k` is already present:
replace the value at the first occurrence of the key, in place. -/
def updateA {α : Type} : List (String × α) → String → α → List (String × α)
  | [], _, _ => []
  | (k', v') :: rest, k, v =>
    if k' = k then (k', v) :: rest else (k', v') :: updateA rest k v

/-- The keys of an association list, in order. -/
def keysA {α : Type} (l : List (String × α)) : List String :=
  l.map Prod.fst

/-- One iteration of the inner loop of `_syncEntriesFromSource`
(src/linguci.js lines 939-955): given the target context so far and one
source pair `(msgid, entry)`, copy the entry if the msgid is absent
(clearing `msgstr` to `[""]` unless it is the header key `""`), and
normalize an existing entry whose `msgstr` is the empty array to `[""]`
when the msgid is not the header key. -/
def syncStep (tc : Context) (p : String × Entry) : Context :=
  match lookupA tc p.1 with
  | none =>
    tc ++ [(p.1, if p.1 = "" then p.2 else { p.2 with msgstr := [""] })]
  | some te =>
    if p.1 ≠ "" ∧ te.msgstr = [] then
      updateA tc p.1 { te with msgstr := [""] }
    else tc

/-- The inner loop of `_syncEntriesFromSource` over one source context. -/
def syncContext (sc tc : Context) : Context :=
  sc.foldl syncStep tc

/-- One iteration of the outer loop of `_syncEntriesFromSource`
(src/linguci.js lines 928-956): ensure the context exists in the target
(creating it empty and appending it if absent), then sync every source
entry into it. -/
def catalogStep (tp : Catalog) (p : String × Context) : Catalog :=
  match lookupA tp p.1 with
  | none => tp ++ [(p.1, syncContext p.2 [])]
  | some tc => updateA tp p.1 (syncContext p.2 tc)

/-- Embedding of `_syncEntriesFromSource(sourcePo, translationPo)` (src/linguci.js
lines 927-957): ensure all entries from the source catalog exist in the
translation catalog, mutating the translation catalog. -/
def _syncEntriesFromSource (sourcePo translationPo : Catalog) : Catalog :=
  sourcePo.foldl catalogStep translationPo

/-- The pending test of `_findEntriesNeedingTranslation` (src/linguci.js
line 977): `msgstr.length === 0 || (msgstr.length === 1 && msgstr[0] === "")`. -/
def needsTranslation (msgstr : List String) : Bool :=
  msgstr.length = 0 || (msgstr.length = 1 && msgstr.headI = "")

/-- Embedding of `_findEntriesNeedingTranslation(translationPo)` (src/linguci.js lines
965-985): per context, the entries (header excluded) whose `msgstr` is
missing or empty, in context iteration order; a context appears in the
output only once it contributes an entry. -/
def _findEntriesNeedingTranslation (translationPo : Catalog) : Catalog :=
  (translationPo.map fun p =>
      (p.1, p.2.filter fun q => q.1 ≠ "" && needsTranslation q.2.msgstr)).filter
    fun p => ¬p.2.isEmpty

/-- The slicing loop of `_createSchemaBatches` (src/linguci.js lines
1002-1017): `for (let i = 0; i < msgids.length; i += batchSize)` taking
`msgids.slice(i, i + batchSize)` each round.  `batchSize` is a validated
positive integer (§6 of the spec); the guard on `b = 0` only makes the
function total. -/
def chunkList {α : Type} (b : Nat) (l : List α) : List (List α) :=
  if hg : l.isEmpty ∨ b = 0 then []
  else l.take b :: chunkList b (l.drop b)
termination_by l.length
decreasing_by
  simp only [not_or, List.isEmpty_iff] at hg
  have h1 : 0 < l.length := List.length_pos.mpr hg.1
  have h2 : b ≠ 0 := hg.2
  simp only [List.length_drop]
  omega

/-- Embedding of `_createSchemaBatches(emptyMsgStrs, batchSize)` (src/linguci.js lines
994-1021): per context, the list of batches, batch number = list index; a
batch's Zod schema is modelled by the ordered list of msgids it requires. -/
def _createSchemaBatches (emptyMsgStrs : Catalog) (batchSize : Nat) :
    List (String × List (List String)) :=
  emptyMsgStrs.map fun p => (p.1, chunkList batchSize (keysA p.2))

/-- The stored translation value (src/linguci.js line 841):
`object[msgid] ? object[msgid].trim() : ""` — an empty (falsy) string
stays empty, anything else is trimmed of surrounding whitespace. -/
def jsTrimVal (s : String) : String :=
  if s = "" then "" else s.trim

/-- One iteration of the merge loop of `_updateTranslationPoWithResults`
(src/linguci.js lines 838-846): if the msgid exists in the context, set
its `msgstr` to the single trimmed translation; otherwise ignore it. -/
def mergeStep (c : Context) (p : String × String) : Context :=
  match lookupA c p.1 with
  | none => c
  | some e => updateA c p.1 { e with msgstr := [jsTrimVal p.2] }

/-- Embedding of `_updateTranslationPoWithResults(translationPo, contextKey, object)`
(src/linguci.js lines 830-847): if the context key is absent, return
unchanged; otherwise merge each returned `(msgid, translation)` pair into
the context. -/
def _updateTranslationPoWithResults (translationPo : Catalog)
    (contextKey : String) (object : List (String × String)) : Catalog :=
  match lookupA translationPo contextKey with
  | none => translationPo
  | some ctx => updateA translationPo contextKey (object.foldl mergeStep ctx)

/-- The observable outcome of the retry loop of `executeTask`
(src/linguci.js lines 500-554): whether the loop ended in success, how
many times the provider was called (`generateObject` invocations), and
how many `retryDelay` pauses were taken. -/
structure LoopResult where
  ok : Bool
  attempts : Nat
  delays : Nat
deriving DecidableEq

/-- The retry loop `while (!success && retries <= maxRetries)` of
`executeTask` (src/linguci.js lines 505-554), parameterized by an oracle
`provider` giving the outcome of each attempt (attempt number = current
value of `retries`): on success the loop exits; on failure `retries` is
incremented and, if still within `maxRetries`, a `retryDelay` pause is
taken and the loop re-enters, otherwise the error is rethrown. -/
def taskLoop (provider : Nat → Bool) (maxRetries retries : Nat) : LoopResult :=
  if retries ≤ maxRetries then
    if provider retries then
      { ok := true, attempts := 1, delays := 0 }
    else if retries + 1 ≤ maxRetries then
      let r := taskLoop provider maxRetries (retries + 1)
      { ok := r.ok, attempts := r.attempts + 1, delays := r.delays + 1 }
    else
      { ok := false, attempts := 1, delays := 0 }
  else { ok := false, attempts := 0, delays := 0 }
termination_by maxRetries + 1 - retries

/-- Embedding of `executeTask` (src/linguci.js lines 483-572) as seen from the
scheduler: the retry loop started at `retries = 0`. -/
def executeTask (provider : Nat → Bool) (maxRetries : Nat) : LoopResult :=
  taskLoop provider maxRetries 0

/-- The settled state of one task promise as recorded by
`Promise.allSettled` (src/linguci.js line 592): fulfilled with the task's
`\x7b success \x7d` flag, or rejected when `executeTask` threw. -/
inductive Settled where
  | fulfilled (success : Bool)
  | rejected
deriving DecidableEq

/-- How one task settles: `executeTask` either returns
`\x7b success: true \x7d` or throws its final error (src/linguci.js lines
551, 571). -/
def settleTask (maxRetries : Nat) (provider : Nat → Bool) : Settled :=
  if (executeTask provider maxRetries).ok then .fulfilled true else .rejected

/-- Embedding of `processTasks` (src/linguci.js lines 575-604): walk the queue in
chunks of `languageConcurrency`, settle the whole chunk, and push the
chunk's settled results onto the accumulated result list.  Each task is
given by its provider-outcome oracle. -/
def processTasksResults (languageConcurrency maxRetries : Nat)
    (tasks : List (Nat → Bool)) : List Settled :=
  (chunkList languageConcurrency tasks).foldl
    (fun results chunk => results ++ chunk.map (settleTask maxRetries)) []

/-- The success tally of `executeTranslations` (src/linguci.js lines
611-613): results that are fulfilled with `success` true. -/
def summarySuccessful (results : List Settled) : Nat :=
  (results.filter fun r => r = .fulfilled true).length

/-- The failure tally of `executeTranslations` (src/linguci.js line 614):
`results.length - successful`. -/
def summaryFailed (results : List Settled) : Nat :=
  results.length - summarySuccessful results

/-- An observable scheduling event: task `n` is launched, or task `n`'s
promise settles (fulfilled or rejected). -/
inductive Ev where
  | start (n : Nat)
  | settle (n : Nat)
deriving DecidableEq

/-- The event trace of one chunk of `processTasks` (src/linguci.js lines
590-592): `chunk.map(executeTask)` launches every task of the chunk, in
order, and `await Promise.allSettled` then observes their settlements in
some order (`settleOrder`) before anything else happens. -/
def windowTrace (chunk settleOrder : List Nat) : List Ev :=
  chunk.map Ev.start ++ settleOrder.map Ev.settle

/-- The event trace of a whole `processTasks` run: the chunk traces in
sequence — the `await` between chunks means chunk `i+1` contributes no
event before every event of chunk `i`. -/
def schedTrace (chunks settleOrders : List (List Nat)) : List Ev :=
  (List.zipWith windowTrace chunks settleOrders).flatten

/-- The number of `start` events in a trace. -/
def startsIn (tr : List Ev) : Nat :=
  tr.countP fun e => match e with | .start _ => true | .settle _ => false

/-- The number of `settle` events in a trace. -/
def settlesIn (tr : List Ev) : Nat :=
  tr.countP fun e => match e with | .start _ => false | .settle _ => true

/-! ### Association-list lemmas -/

theorem lookupA_append_of_isSome {α : Type} {l l2 : List (String × α)} {k : String}
    (h : (lookupA l k).isSome) : lookupA (l ++ l2) k = lookupA l k := by
  induction l with
  | nil => simp [lookupA] at h
  | cons hd tl ih =>
    obtain ⟨k', v⟩ := hd
    by_cases hk : k' = k
    · simp [lookupA, hk]
    · simp only [lookupA, hk, if_false] at h ⊢
      exact ih h

theorem lookupA_append_of_none {α : Type} {l l2 : List (String × α)} {k : String}
    (h : lookupA l k = none) : lookupA (l ++ l2) k = lookupA l2 k := by
  induction l with
  | nil => simp [lookupA]
  | cons hd tl ih =>
    obtain ⟨k', v⟩ := hd
    by_cases hk : k' = k
    · simp [lookupA, hk] at h
    · simp only [lookupA, hk, if_false] at h ⊢
      exact ih h

theorem lookupA_updateA_self {α : Type} {l : List (String × α)} {k : String} {v0 : α}
    (h : lookupA l k = some v0) (v : α) : lookupA (updateA l k v) k = some v := by
  induction l with
  | nil => simp [lookupA] at h
  | cons hd tl ih =>
    obtain ⟨k', v'⟩ := hd
    by_cases hk : k' = k
    · simp [lookupA, updateA, hk]
    · simp only [lookupA, updateA, hk, if_false] at h ⊢
      exact ih h

theorem lookupA_updateA_ne {α : Type} {l : List (String × α)} {k k' : String} (v : α)
    (h : k' ≠ k) : lookupA (updateA l k v) k' = lookupA l k' := by
  induction l with
  | nil => simp [updateA]
  | cons hd tl ih =>
    obtain ⟨k'', v''⟩ := hd
    by_cases hk : k'' = k
    · subst hk
      simp [updateA, lookupA, (Ne.symm h)]
    · simp only [updateA, hk, if_false, lookupA]
      by_cases hk2 : k'' = k'
      · simp [hk2]
      · simp only [hk2, if_false]
        exact ih

theorem updateA_self_eq {α : Type} {l : List (String × α)} {k : String} {v : α}
    (h : lookupA l k = some v) : updateA l k v = l := by
  induction l with
  | nil => simp [lookupA] at h
  | cons hd tl ih =>
    obtain ⟨k', v'⟩ := hd
    by_cases hk : k' = k
    · subst hk
      simp only [lookupA, if_pos trivial, Option.some.injEq] at h
      simp [updateA, h]
    · simp only [lookupA, hk, if_false] at h
      simp [updateA, hk, ih h]

theorem keysA_updateA {α : Type} (l : List (String × α)) (k : String) (v : α) :
    keysA (updateA l k v) = keysA l := by
  induction l with
  | nil => simp [updateA]
  | cons hd tl ih =>
    obtain ⟨k', v'⟩ := hd
    by_cases hk : k' = k
    · simp [updateA, hk, keysA]
    · simp only [updateA, hk, if_false, keysA, List.map_cons]
      simpa [keysA] using ih

theorem lookupA_isSome_of_mem_keysA {α : Type} {l : List (String × α)} {k : String}
    (h : k ∈ keysA l) : (lookupA l k).isSome := by
  induction l with
  | nil => simp [keysA] at h
  | cons hd tl ih =>
    obtain ⟨k', v'⟩ := hd
    by_cases hk : k' = k
    · simp [lookupA, hk]
    · simp only [keysA, List.map_cons, List.mem_cons] at h
      rcases h with h | h
      · exact absurd h.symm hk
      · simpa [lookupA, hk] using ih h

theorem mem_keysA_of_lookupA_isSome {α : Type} {l : List (String × α)} {k : String}
    (h : (lookupA l k).isSome) : k ∈ keysA l := by
  induction l with
  | nil => simp [lookupA] at h
  | cons hd tl ih =>
    obtain ⟨k', v'⟩ := hd
    by_cases hk : k' = k
    · simp [keysA, hk]
    · simp only [lookupA, hk, if_false] at h
      simp only [keysA, List.map_cons, List.mem_cons]
      exact Or.inr (ih h)

/-! ### Synchronizer: key presence -/

theorem lookupA_isSome_syncStep {tc : Context} {k : String} (p : String × Entry)
    (h : (lookupA tc k).isSome) : (lookupA (syncStep tc p) k).isSome := by
  unfold syncStep
  cases hl : lookupA tc p.1 with
  | none => rw [lookupA_append_of_isSome h]; exact h
  | some te =>
    by_cases hc : p.1 ≠ "" ∧ te.msgstr = []
    · simp only [if_pos hc]
      by_cases hk : k = p.1
      · subst hk
        rw [lookupA_updateA_self hl]
        rfl
      · rw [lookupA_updateA_ne _ hk]
        exact h
    · simpa [if_neg hc] using h

theorem lookupA_isSome_syncContext {k : String} (sc : Context) {tc : Context}
    (h : (lookupA tc k).isSome) : (lookupA (syncContext sc tc) k).isSome := by
  induction sc generalizing tc with
  | nil => exact h
  | cons hd tl ih =>
    exact ih (lookupA_isSome_syncStep hd h)

theorem lookupA_isSome_syncStep_self (tc : Context) (p : String × Entry) :
    (lookupA (syncStep tc p) p.1).isSome := by
  unfold syncStep
  cases hl : lookupA tc p.1 with
  | none =>
    rw [lookupA_append_of_none hl]
    simp [lookupA]
  | some te =>
    by_cases hc : p.1 ≠ "" ∧ te.msgstr = []
    · simp only [if_pos hc]
      rw [lookupA_updateA_self hl]
      rfl
    · simp [if_neg hc, hl]

theorem lookupA_isSome_syncContext_of_mem {sc : Context} {p : String × Entry}
    (hp : p ∈ sc) (tc : Context) : (lookupA (syncContext sc tc) p.1).isSome := by
  induction sc generalizing tc with
  | nil => simp at hp
  | cons hd tl ih =>
    rcases List.mem_cons.mp hp with h | h
    · subst h
      exact lookupA_isSome_syncContext tl (lookupA_isSome_syncStep_self tc p)
    · exact ih h _

/-- A present context with a present key survives any further catalog
steps of `_syncEntriesFromSource`. -/
theorem catalogStep_preserves_key {tp : Catalog} {ck k : String} {tctx : Context}
    (p : String × Context) (hc : lookupA tp ck = some tctx)
    (hk : (lookupA tctx k).isSome) :
    ∃ tctx', lookupA (catalogStep tp p) ck = some tctx' ∧
      (lookupA tctx' k).isSome := by
  unfold catalogStep
  cases hl : lookupA tp p.1 with
  | none =>
    refine ⟨tctx, ?_, hk⟩
    rw [lookupA_append_of_isSome (by simp [hc])]
    exact hc
  | some tc =>
    by_cases hck : ck = p.1
    · subst hck
      rw [hc] at hl
      cases hl
      exact ⟨_, lookupA_updateA_self hc _, lookupA_isSome_syncContext _ hk⟩
    · exact ⟨tctx, by rw [lookupA_updateA_ne _ hck]; exact hc, hk⟩

theorem foldl_catalogStep_preserves_key (rest : Catalog) {tp : Catalog}
    {ck k : String} {tctx : Context} (hc : lookupA tp ck = some tctx)
    (hk : (lookupA tctx k).isSome) :
    ∃ tctx', lookupA (rest.foldl catalogStep tp) ck = some tctx' ∧
      (lookupA tctx' k).isSome := by
  induction rest generalizing tp tctx with
  | nil => exact ⟨tctx, hc, hk⟩
  | cons hd tl ih =>
    obtain ⟨tctx', hc', hk'⟩ := catalogStep_preserves_key hd hc hk
    exact ih hc' hk'

theorem catalogStep_establishes_key {tp : Catalog} {sc : Context}
    {ck : String} {q : String × Entry} (hq : q ∈ sc) :
    ∃ tctx, lookupA (catalogStep tp (ck, sc)) ck = some tctx ∧
      (lookupA tctx q.1).isSome := by
  unfold catalogStep
  cases hl : lookupA tp ck with
  | none =>
    refine ⟨syncContext sc [], ?_, lookupA_isSome_syncContext_of_mem hq []⟩
    rw [lookupA_append_of_none hl]
    simp [lookupA]
  | some tc =>
    exact ⟨_, lookupA_updateA_self hl _, lookupA_isSome_syncContext_of_mem hq tc⟩

/-- Claim C1 core: every key of every source context is present in the
same-named context of the synchronized target.  Stated for every member
pair of the source catalog, including (a fortiori) the non-header keys. -/
theorem sync_source_keys_present {sourcePo : Catalog} {ck : String}
    {sctx : Context} {q : String × Entry} (translationPo : Catalog)
    (hctx : (ck, sctx) ∈ sourcePo) (hq : q ∈ sctx) :
    ∃ tctx, lookupA (_syncEntriesFromSource sourcePo translationPo) ck = some tctx ∧
      (lookupA tctx q.1).isSome := by
  induction sourcePo generalizing translationPo with
  | nil => simp at hctx
  | cons hd tl ih =>
    rcases List.mem_cons.mp hctx with h | h
    · subst h
      obtain ⟨tctx, hc, hk⟩ := @catalogStep_establishes_key translationPo sctx ck q hq
      exact foldl_catalogStep_preserves_key tl hc hk
    · exact ih _ h

/-- C1: For every source catalog and every target catalog, after
synchronization (`_syncEntriesFromSource`), every key present in a source
context other than the header key (the empty msgid) is also present in
the same-named context of the target catalog. -/
theorem sync_source_key_subset (sourcePo translationPo : Catalog)
    (ck msgid : String) (sctx : Context)
    (hctx : (ck, sctx) ∈ sourcePo) (hmem : msgid ∈ keysA sctx)
    (hhdr : msgid ≠ "") :
    ∃ tctx,
      lookupA (_syncEntriesFromSource sourcePo translationPo) ck = some tctx ∧
      msgid ∈ keysA tctx := by
  obtain ⟨q, hq, hfst⟩ := List.mem_map.mp hmem
  obtain ⟨tctx, hc, hk⟩ := sync_source_keys_present translationPo hctx hq
  rw [hfst] at hk
  exact ⟨tctx, hc, mem_keysA_of_lookupA_isSome hk⟩

/-- Witness for C1 at a concrete source/target pair. -/
theorem sync_source_key_subset_witness :
    ∃ tctx,
      lookupA
        (_syncEntriesFromSource
          [("", [("", ⟨["hdr"], "H"⟩), ("hello", ⟨["hi"], "m"⟩)])]
          [("", [("", ⟨["thdr"], "T"⟩)])]) "" = some tctx ∧
      "hello" ∈ keysA tctx :=
  sync_source_key_subset
    [("", [("", ⟨["hdr"], "H"⟩), ("hello", ⟨["hi"], "m"⟩)])]
    [("", [("", ⟨["thdr"], "T"⟩)])] "" "hello"
    [("", ⟨["hdr"], "H"⟩), ("hello", ⟨["hi"], "m"⟩)]
    (by decide) (by decide) (by decide)

/-! ### Synchronizer: frame effect on pre-existing entries -/

/-- How synchronization may evolve a pre-existing target entry: either it
is untouched, or it is a non-header entry whose `msgstr` was the empty
sequence, normalized to the single empty string. -/
def evolved (msgid : String) (e e' : Entry) : Prop :=
  e' = e ∨ (msgid ≠ "" ∧ e.msgstr = [] ∧ e' = { e with msgstr := [""] })

theorem evolved_syncStep {tc : Context} {msgid : String} {e e' : Entry}
    (p : String × Entry) (hl : lookupA tc msgid = some e')
    (he : evolved msgid e e') :
    ∃ e'', lookupA (syncStep tc p) msgid = some e'' ∧ evolved msgid e e'' := by
  unfold syncStep
  cases hp : lookupA tc p.1 with
  | none =>
    refine ⟨e', ?_, he⟩
    rw [lookupA_append_of_isSome (by simp [hl])]
    exact hl
  | some te =>
    by_cases hc : p.1 ≠ "" ∧ te.msgstr = []
    · simp only [if_pos hc]
      by_cases hk : msgid = p.1
      · subst hk
        rw [hl] at hp
        cases hp
        refine ⟨_, lookupA_updateA_self hl _, Or.inr ⟨hc.1, ?_, ?_⟩⟩
        · rcases he with he | he
          · rw [← he]; exact hc.2
          · exact absurd hc.2 (by rw [he.2.2]; simp)
        · rcases he with he | he
          · rw [he]
          · rw [he.2.2]
      · exact ⟨e', by rw [lookupA_updateA_ne _ hk]; exact hl, he⟩
    · exact ⟨e', by simp [if_neg hc, hl], he⟩

theorem evolved_syncContext {msgid : String} {e e' : Entry} (sc : Context)
    {tc : Context} (hl : lookupA tc msgid = some e')
    (he : evolved msgid e e') :
    ∃ e'', lookupA (syncContext sc tc) msgid = some e'' ∧ evolved msgid e e'' := by
  induction sc generalizing tc e' with
  | nil => exact ⟨e', hl, he⟩
  | cons hd tl ih =>
    obtain ⟨e'', hl', he'⟩ := evolved_syncStep hd hl he
    exact ih hl' he'

theorem evolved_catalogStep {tp : Catalog} {ck msgid : String}
    {tctx : Context} {e e' : Entry} (p : String × Context)
    (hc : lookupA tp ck = some tctx) (hl : lookupA tctx msgid = some e')
    (he : evolved msgid e e') :
    ∃ tctx' e'', lookupA (catalogStep tp p) ck = some tctx' ∧
      lookupA tctx' msgid = some e'' ∧ evolved msgid e e'' := by
  unfold catalogStep
  cases hp : lookupA tp p.1 with
  | none =>
    refine ⟨tctx, e', ?_, hl, he⟩
    rw [lookupA_append_of_isSome (by simp [hc])]
    exact hc
  | some tc =>
    by_cases hck : ck = p.1
    · subst hck
      rw [hc] at hp
      cases hp
      obtain ⟨e'', hl', he'⟩ := evolved_syncContext p.2 hl he
      exact ⟨_, e'', lookupA_updateA_self hc _, hl', he'⟩
    · exact ⟨tctx, e', by rw [lookupA_updateA_ne _ hck]; exact hc, hl, he⟩

theorem evolved_foldl_catalogStep (rest : Catalog) {tp : Catalog}
    {ck msgid : String} {tctx : Context} {e e' : Entry}
    (hc : lookupA tp ck = some tctx) (hl : lookupA tctx msgid = some e')
    (he : evolved msgid e e') :
    ∃ tctx' e'', lookupA (rest.foldl catalogStep tp) ck = some tctx' ∧
      lookupA tctx' msgid = some e'' ∧ evolved msgid e e'' := by
  induction rest generalizing tp tctx e' with
  | nil => exact ⟨tctx, e', hc, hl, he⟩
  | cons hd tl ih =>
    obtain ⟨tctx', e'', hc', hl', he'⟩ := evolved_catalogStep hd hc hl he
    exact ih hc' hl' he'

/-- C6: synchronization never deletes a pre-existing target entry and
never changes one whose translation is non-pending; the only mutation it
makes to a pre-existing entry is normalizing a non-header entry whose
`msgstr` is the empty sequence to the single empty string. -/
theorem sync_frame_effect (sourcePo translationPo : Catalog)
    (ck msgid : String) (tctx : Context) (e : Entry)
    (hc : lookupA translationPo ck = some tctx)
    (hl : lookupA tctx msgid = some e) :
    ∃ tctx' e',
      lookupA (_syncEntriesFromSource sourcePo translationPo) ck = some tctx' ∧
      lookupA tctx' msgid = some e' ∧
      (e' = e ∨ (msgid ≠ "" ∧ e.msgstr = [] ∧ e' = { e with msgstr := [""] })) :=
  evolved_foldl_catalogStep sourcePo hc hl (Or.inl rfl)

/-- Witness for C6: a non-pending pre-existing translation survives
synchronization untouched. -/
theorem sync_frame_effect_witness :
    ∃ tctx' e',
      lookupA
        (_syncEntriesFromSource [("", [("hello", ⟨["hi"], "m"⟩)])]
          [("", [("hello", ⟨["salut"], "t"⟩)])]) "" = some tctx' ∧
      lookupA tctx' "hello" = some e' ∧
      (e' = ⟨["salut"], "t"⟩ ∨
        ("hello" ≠ "" ∧ Entry.msgstr ⟨["salut"], "t"⟩ = [] ∧
          e' = { (⟨["salut"], "t"⟩ : Entry) with msgstr := [""] })) :=
  sync_frame_effect [("", [("hello", ⟨["hi"], "m"⟩)])]
    [("", [("hello", ⟨["salut"], "t"⟩)])] "" "hello"
    [("hello", ⟨["salut"], "t"⟩)] ⟨["salut"], "t"⟩ (by decide) (by decide)

/-! ### Synchronizer: idempotence -/

/-- After synchronization, a source key is present in the target context
and, unless it is the header key, its `msgstr` is not the empty sequence
— exactly the state in which `syncStep` is a no-op. -/
def entryOk (k : String) (tc : Context) : Prop :=
  ∃ e, lookupA tc k = some e ∧ (k ≠ "" → e.msgstr ≠ [])

theorem entryOk_syncStep_self (tc : Context) (p : String × Entry) :
    entryOk p.1 (syncStep tc p) := by
  unfold syncStep
  cases hl : lookupA tc p.1 with
  | none =>
    refine ⟨if p.1 = "" then p.2 else { p.2 with msgstr := [""] }, ?_, ?_⟩
    · rw [lookupA_append_of_none hl]
      simp [lookupA]
    · intro hne
      simp [if_neg hne]
  | some te =>
    by_cases hc : p.1 ≠ "" ∧ te.msgstr = []
    · simp only [if_pos hc]
      exact ⟨_, lookupA_updateA_self hl _, fun _ => by simp⟩
    · simp only [if_neg hc]
      push_neg at hc
      exact ⟨te, hl, fun hne => hc hne⟩

theorem entryOk_syncStep {k : String} {tc : Context} (p : String × Entry)
    (h : entryOk k tc) : entryOk k (syncStep tc p) := by
  obtain ⟨e, hl, hne⟩ := h
  unfold syncStep
  cases hp : lookupA tc p.1 with
  | none =>
    exact ⟨e, by rw [lookupA_append_of_isSome (by simp [hl])]; exact hl, hne⟩
  | some te =>
    by_cases hc : p.1 ≠ "" ∧ te.msgstr = []
    · simp only [if_pos hc]
      by_cases hk : k = p.1
      · subst hk
        exact ⟨_, lookupA_updateA_self hl _, fun _ => by simp⟩
      · exact ⟨e, by rw [lookupA_updateA_ne _ hk]; exact hl, hne⟩
    · exact ⟨e, by simp [if_neg hc, hl], hne⟩

theorem entryOk_syncContext {k : String} (sc : Context) {tc : Context}
    (h : entryOk k tc) : entryOk k (syncContext sc tc) := by
  induction sc generalizing tc with
  | nil => exact h
  | cons hd tl ih => exact ih (entryOk_syncStep hd h)

theorem entryOk_syncContext_of_mem {sc : Context} {q : String × Entry}
    (hq : q ∈ sc) (tc : Context) : entryOk q.1 (syncContext sc tc) := by
  induction sc generalizing tc with
  | nil => simp at hq
  | cons hd tl ih =>
    rcases List.mem_cons.mp hq with h | h
    · subst h
      exact entryOk_syncContext tl (entryOk_syncStep_self tc q)
    · exact ih h _

theorem syncStep_noop {tc : Context} {p : String × Entry}
    (h : entryOk p.1 tc) : syncStep tc p = tc := by
  obtain ⟨e, hl, hne⟩ := h
  unfold syncStep
  rw [hl]
  by_cases hk : p.1 = ""
  · simp [hk]
  · simp [hk, hne hk]

theorem syncContext_noop {sc tc : Context}
    (h : ∀ q ∈ sc, entryOk q.1 tc) : syncContext sc tc = tc := by
  induction sc with
  | nil => rfl
  | cons hd tl ih =>
    show syncContext tl (syncStep tc hd) = tc
    rw [syncStep_noop (h hd (by simp))]
    exact ih fun q hq => h q (by simp [hq])

/-- All entries of a source context are in the no-op state in `tc`. -/
def ctxOkFor (sc tc : Context) : Prop :=
  ∀ q ∈ sc, entryOk q.1 tc

theorem ctxOkFor_syncContext {sc tc : Context} (sc' : Context)
    (h : ctxOkFor sc tc) : ctxOkFor sc (syncContext sc' tc) :=
  fun q hq => entryOk_syncContext sc' (h q hq)

/-- The context named `ck` is present and fully synced for `sc`. -/
def catOkFor (ck : String) (sc : Context) (tp : Catalog) : Prop :=
  ∃ tc, lookupA tp ck = some tc ∧ ctxOkFor sc tc

theorem catOkFor_catalogStep_self (tp : Catalog) (p : String × Context) :
    catOkFor p.1 p.2 (catalogStep tp p) := by
  unfold catalogStep
  cases hl : lookupA tp p.1 with
  | none =>
    refine ⟨syncContext p.2 [], ?_, fun q hq => entryOk_syncContext_of_mem hq []⟩
    rw [lookupA_append_of_none hl]
    simp [lookupA]
  | some tc =>
    exact ⟨_, lookupA_updateA_self hl _, fun q hq => entryOk_syncContext_of_mem hq tc⟩

theorem catOkFor_catalogStep {ck : String} {sc : Context} {tp : Catalog}
    (p : String × Context) (h : catOkFor ck sc tp) :
    catOkFor ck sc (catalogStep tp p) := by
  obtain ⟨tc, hl, hok⟩ := h
  unfold catalogStep
  cases hp : lookupA tp p.1 with
  | none =>
    exact ⟨tc, by rw [lookupA_append_of_isSome (by simp [hl])]; exact hl, hok⟩
  | some tc' =>
    by_cases hk : ck = p.1
    · subst hk
      rw [hl] at hp
      cases hp
      exact ⟨_, lookupA_updateA_self hl _, ctxOkFor_syncContext _ hok⟩
    · exact ⟨tc, by rw [lookupA_updateA_ne _ hk]; exact hl, hok⟩

theorem catOkFor_foldl_catalogStep {ck : String} {sc : Context}
    (rest : Catalog) {tp : Catalog} (h : catOkFor ck sc tp) :
    catOkFor ck sc (rest.foldl catalogStep tp) := by
  induction rest generalizing tp with
  | nil => exact h
  | cons hd tl ih => exact ih (catOkFor_catalogStep hd h)

theorem catOkFor_sync {sourcePo : Catalog} {p : String × Context}
    (hp : p ∈ sourcePo) (translationPo : Catalog) :
    catOkFor p.1 p.2 (_syncEntriesFromSource sourcePo translationPo) := by
  induction sourcePo generalizing translationPo with
  | nil => simp at hp
  | cons hd tl ih =>
    rcases List.mem_cons.mp hp with h | h
    · subst h
      exact catOkFor_foldl_catalogStep tl (catOkFor_catalogStep_self translationPo p)
    · exact ih h _

theorem catalogStep_noop {tp : Catalog} {p : String × Context}
    (h : catOkFor p.1 p.2 tp) : catalogStep tp p = tp := by
  obtain ⟨tc, hl, hok⟩ := h
  unfold catalogStep
  cases hp : lookupA tp p.1 with
  | none => rw [hp] at hl; cases hl
  | some tc' =>
    rw [hp] at hl
    cases hl
    show updateA tp p.1 (syncContext p.2 tc) = tp
    rw [syncContext_noop hok]
    exact updateA_self_eq hp

theorem foldl_catalogStep_noop {spo tp : Catalog}
    (h : ∀ p ∈ spo, catOkFor p.1 p.2 tp) : spo.foldl catalogStep tp = tp := by
  induction spo with
  | nil => rfl
  | cons hd tl ih =>
    show tl.foldl catalogStep (catalogStep tp hd) = tp
    rw [catalogStep_noop (h hd (by simp))]
    exact ih fun p hp => h p (by simp [hp])

/-- C8: synchronization is idempotent — applying `_syncEntriesFromSource`
twice yields the same target catalog as applying it once. -/
theorem sync_idempotent (sourcePo translationPo : Catalog) :
    _syncEntriesFromSource sourcePo (_syncEntriesFromSource sourcePo translationPo) =
      _syncEntriesFromSource sourcePo translationPo :=
  foldl_catalogStep_noop fun p hp => catOkFor_sync hp translationPo


/-! ### Batch planner: chunkList lemmas -/

theorem chunkList_nil {α : Type} (b : Nat) : chunkList b ([] : List α) = [] := by
  rw [chunkList]
  exact dif_pos (Or.inl rfl)

theorem chunkList_cons {α : Type} {b : Nat} {l : List α} (hb : 1 ≤ b)
    (hl : l ≠ []) : chunkList b l = l.take b :: chunkList b (l.drop b) := by
  rw [chunkList, dif_neg]
  simp only [not_or, List.isEmpty_iff]
  exact ⟨hl, by omega⟩

/-- Induction along the recursion structure of `chunkList` for a fixed
positive chunk size. -/
theorem chunkList_induction {α : Type} {b : Nat} (hb : 1 ≤ b)
    (motive : List α → Prop) (hnil : motive [])
    (hcons : ∀ l : List α, l ≠ [] → motive (l.drop b) → motive l) :
    ∀ l, motive l := by
  have key : ∀ n (l : List α), l.length ≤ n → motive l := by
    intro n
    induction n with
    | zero =>
      intro l hl
      rw [List.eq_nil_of_length_eq_zero (Nat.le_zero.mp hl)]
      exact hnil
    | succ n ih =>
      intro l hl
      by_cases hn : l = []
      · subst hn; exact hnil
      · exact hcons l hn (ih _ (by rw [List.length_drop]; omega))
  exact fun l => key l.length l le_rfl

theorem chunkList_flatten {α : Type} {b : Nat} (hb : 1 ≤ b) (l : List α) :
    (chunkList b l).flatten = l := by
  induction l using chunkList_induction hb with
  | hnil => simp [chunkList_nil]
  | hcons l hn ih =>
    rw [chunkList_cons hb hn, List.flatten_cons, ih]
    exact List.take_append_drop b l

theorem chunkList_length {α : Type} {b : Nat} (hb : 1 ≤ b) (l : List α) :
    (chunkList b l).length = (l.length + b - 1) / b := by
  induction l using chunkList_induction hb with
  | hnil =>
    rw [chunkList_nil]
    simp only [List.length_nil]
    exact (Nat.div_eq_of_lt (by omega)).symm
  | hcons l hn ih =>
    have hpos : 0 < l.length := List.length_pos.mpr hn
    rw [chunkList_cons hb hn, List.length_cons, ih, List.length_drop]
    by_cases hle : b ≤ l.length
    · have h1 : l.length - b + b - 1 = l.length - 1 := by omega
      have h2 : l.length + b - 1 = (l.length - 1) + b := by omega
      rw [h1, h2, Nat.add_div_right _ (by omega)]
    · have h1 : l.length - b + b - 1 = b - 1 := by omega
      have h0 : (b - 1) / b = 0 := Nat.div_eq_of_lt (by omega)
      have hlo : 1 ≤ (l.length + b - 1) / b :=
        (Nat.le_div_iff_mul_le (by omega)).mpr (by omega)
      have hhi : (l.length + b - 1) / b < 2 :=
        (Nat.div_lt_iff_lt_mul (by omega)).mpr (by omega)
      rw [h1, h0]
      omega

theorem chunkList_getElem_some {α : Type} {b : Nat} (hb : 1 ≤ b) (l : List α) :
    ∀ i, i < (chunkList b l).length →
      (chunkList b l)[i]? = some ((l.drop (i * b)).take b) := by
  induction l using chunkList_induction hb with
  | hnil =>
    intro i hi
    rw [chunkList_nil] at hi
    simp at hi
  | hcons l hn ih =>
    intro i hi
    rw [chunkList_cons hb hn] at hi ⊢
    cases i with
    | zero => simp
    | succ j =>
      rw [List.getElem?_cons_succ]
      rw [List.length_cons] at hi
      rw [ih j (by omega), List.drop_drop]
      congr 2
      ring_nf

theorem chunkList_full_of_not_last {α : Type} {b : Nat} (hb : 1 ≤ b)
    (l : List α) (i : Nat) (hi : i + 1 < (chunkList b l).length) :
    ((chunkList b l)[i]?).map List.length = some b := by
  have hlen := chunkList_length hb l
  have hget := chunkList_getElem_some hb l i (by omega)
  rw [hget, Option.map_some']
  congr 1
  rw [List.length_take, List.length_drop]
  have hmul : (i + 2) * b ≤ l.length + b - 1 := by
    have hstep := (@Nat.le_div_iff_mul_le b (i + 2) (l.length + b - 1)
      (by omega)).mp (by omega : i + 2 ≤ (l.length + b - 1) / b)
    exact hstep
  have hexp : (i + 2) * b = i * b + b + b := by ring
  rw [hexp] at hmul
  omega

theorem chunkList_getLast_length {α : Type} {b : Nat} (hb : 1 ≤ b)
    (l : List α) (hl : l ≠ []) :
    ((chunkList b l).getLast?).map List.length =
      some (if l.length % b = 0 then b else l.length % b) := by
  have hn : 0 < l.length := List.length_pos.mpr hl
  have hm := chunkList_length hb l
  have hm1 : 1 ≤ (chunkList b l).length := by
    rw [hm]
    exact (Nat.le_div_iff_mul_le (by omega)).mpr (by omega)
  rw [List.getLast?_eq_getElem?,
    chunkList_getElem_some hb l ((chunkList b l).length - 1) (by omega),
    Option.map_some']
  congr 1
  rw [List.length_take, List.length_drop]
  -- arithmetic: with n = l.length, q = n / b, r = n % b,
  -- the last batch starts at ((ceil(n/b)) - 1) * b and has min b (n - start)
  have hqr := Nat.div_add_mod l.length b
  have hrb : l.length % b < b := Nat.mod_lt _ (by omega)
  by_cases hr : l.length % b = 0
  · rw [if_pos hr]
    have hq1 : 1 ≤ l.length / b := by
      rcases Nat.eq_zero_or_pos (l.length / b) with h0 | h1
      · rw [h0] at hqr; omega
      · exact h1
    have hmq : (chunkList b l).length = l.length / b := by
      rw [hm]
      have he : l.length + b - 1 = b * (l.length / b) + (b - 1) := by omega
      rw [he, Nat.mul_add_div (by omega),
        Nat.div_eq_of_lt (show b - 1 < b by omega), Nat.add_zero]
    rw [hmq]
    have hsub : (l.length / b - 1) * b = (l.length / b) * b - b := Nat.sub_one_mul _ _
    have hcomm : (l.length / b) * b = b * (l.length / b) := Nat.mul_comm _ _
    have hXb : b ≤ b * (l.length / b) := Nat.le_mul_of_pos_right b hq1
    rw [hsub, hcomm]
    omega
  · rw [if_neg hr]
    have hmq : (chunkList b l).length = l.length / b + 1 := by
      rw [hm]
      have he : l.length + b - 1 = b * (l.length / b) + (l.length % b + b - 1) := by omega
      rw [he, Nat.mul_add_div (by omega)]
      have hone : (l.length % b + b - 1) / b = 1 := by
        have hlo : 1 ≤ (l.length % b + b - 1) / b :=
          (Nat.le_div_iff_mul_le (by omega)).mpr (by omega)
        have hhi : (l.length % b + b - 1) / b < 2 :=
          (Nat.div_lt_iff_lt_mul (by omega)).mpr (by omega)
        omega
      rw [hone]
    rw [hmq]
    simp only [Nat.add_sub_cancel]
    have hcomm : (l.length / b) * b = b * (l.length / b) := Nat.mul_comm _ _
    rw [hcomm]
    omega

theorem chunkList_mem_length_le {α : Type} {b : Nat} (hb : 1 ≤ b) {l : List α}
    {ch : List α} (h : ch ∈ chunkList b l) : ch.length ≤ b := by
  induction l using chunkList_induction hb with
  | hnil =>
    rw [chunkList_nil] at h
    simp at h
  | hcons l hn ih =>
    rw [chunkList_cons hb hn] at h
    rcases List.mem_cons.mp h with h | h
    · subst h
      rw [List.length_take]
      omega
    · exact ih h

theorem chunkList_map {α β : Type} {b : Nat} (hb : 1 ≤ b) (f : α → β)
    (l : List α) :
    chunkList b (l.map f) = (chunkList b l).map (List.map f) := by
  induction l using chunkList_induction hb with
  | hnil => simp [chunkList_nil]
  | hcons l hn ih =>
    rw [chunkList_cons hb hn, chunkList_cons hb (by simp [hn]),
      List.map_cons, ← List.map_take, ← List.map_drop, ih]

theorem lookupA_map_snd {α β : Type} (f : α → β) (l : List (String × α))
    (k : String) :
    lookupA (l.map fun p => (p.1, f p.2)) k = (lookupA l k).map f := by
  induction l with
  | nil => simp [lookupA]
  | cons hd tl ih =>
    obtain ⟨k', v⟩ := hd
    by_cases hk : k' = k
    · simp [lookupA, hk]
    · simpa [lookupA, hk] using ih

/-- C2: for every backlog and every positive `batchSize`, the batches
produced by `_createSchemaBatches` for a context partition that context's
backlog exactly: each batch is the contiguous order-preserving slice
`msgids.slice(i*b, i*b+b)`, numbered from 0; nothing is omitted; no key
appears in two batches (keys being unique); all but possibly the last
batch have exactly `b` keys; the number of batches is `ceil(n/b)`; the
last batch has `n mod b` keys, or `b` when `b` divides `n`. -/
theorem createSchemaBatches_partition (emptyMsgStrs : Catalog) (b : Nat)
    (ck : String) (ctx : Context)
    (hb : 1 ≤ b) (hctx : lookupA emptyMsgStrs ck = some ctx) :
    ∃ batches,
      lookupA (_createSchemaBatches emptyMsgStrs b) ck = some batches ∧
      batches.flatten = keysA ctx ∧
      (∀ i, i < batches.length →
        batches[i]? = some (((keysA ctx).drop (i * b)).take b)) ∧
      batches.length = ((keysA ctx).length + b - 1) / b ∧
      (∀ i, i + 1 < batches.length →
        (batches[i]?).map List.length = some b) ∧
      (ctx ≠ [] → batches.getLast?.map List.length =
        some (if (keysA ctx).length % b = 0 then b
              else (keysA ctx).length % b)) ∧
      ((keysA ctx).Nodup → batches.Pairwise List.Disjoint) := by
  refine ⟨chunkList b (keysA ctx), ?_, chunkList_flatten hb _,
    chunkList_getElem_some hb _, chunkList_length hb _,
    chunkList_full_of_not_last hb _, ?_, ?_⟩
  · rw [show (_createSchemaBatches emptyMsgStrs b) =
        (emptyMsgStrs.map fun p => (p.1, chunkList b (keysA p.2))) from rfl,
      lookupA_map_snd (fun c => chunkList b (keysA c)) emptyMsgStrs ck, hctx]
    rfl
  · intro hne
    exact chunkList_getLast_length hb _ (by simpa [keysA] using hne)
  · intro hnodup
    have : (chunkList b (keysA ctx)).flatten.Nodup := by
      rw [chunkList_flatten hb]
      exact hnodup
    exact (List.nodup_flatten.mp this).2

/-- A concrete five-key backlog context used by the C2 witness. -/
def backlogCtxW2 : Context :=
  [("k1", ⟨[""], "a"⟩), ("k2", ⟨[""], "b"⟩), ("k3", ⟨[""], "c"⟩),
    ("k4", ⟨[""], "d"⟩), ("k5", ⟨[""], "e"⟩)]

/-- Witness for C2 at a concrete backlog of five keys and `batchSize = 2`. -/
theorem createSchemaBatches_partition_witness :
    ∃ batches,
      lookupA (_createSchemaBatches [("", backlogCtxW2)] 2) "" = some batches ∧
      batches.flatten = keysA backlogCtxW2 ∧
      (∀ i, i < batches.length →
        batches[i]? = some (((keysA backlogCtxW2).drop (i * 2)).take 2)) ∧
      batches.length = ((keysA backlogCtxW2).length + 2 - 1) / 2 ∧
      (∀ i, i + 1 < batches.length →
        (batches[i]?).map List.length = some 2) ∧
      (backlogCtxW2 ≠ [] → batches.getLast?.map List.length =
        some (if (keysA backlogCtxW2).length % 2 = 0 then 2
              else (keysA backlogCtxW2).length % 2)) ∧
      ((keysA backlogCtxW2).Nodup → batches.Pairwise List.Disjoint) :=
  createSchemaBatches_partition [("", backlogCtxW2)] 2 "" backlogCtxW2
    (by decide) (by decide)

/-! ### Task executor: retry loop -/

theorem taskLoop_eq_success {provider : Nat → Bool} {maxRetries retries : Nat}
    (hr : retries ≤ maxRetries) (hp : provider retries = true) :
    taskLoop provider maxRetries retries =
      { ok := true, attempts := 1, delays := 0 } := by
  rw [taskLoop, if_pos hr, hp, if_pos rfl]

theorem taskLoop_eq_retry {provider : Nat → Bool} {maxRetries retries : Nat}
    (hp : provider retries = false) (hnext : retries + 1 ≤ maxRetries) :
    taskLoop provider maxRetries retries =
      { ok := (taskLoop provider maxRetries (retries + 1)).ok,
        attempts := (taskLoop provider maxRetries (retries + 1)).attempts + 1,
        delays := (taskLoop provider maxRetries (retries + 1)).delays + 1 } := by
  rw [taskLoop, if_pos (by omega : retries ≤ maxRetries), hp,
    if_neg (by simp), if_pos hnext]

theorem taskLoop_eq_exhaust {provider : Nat → Bool} {maxRetries retries : Nat}
    (hr : retries ≤ maxRetries) (hp : provider retries = false)
    (hnext : ¬retries + 1 ≤ maxRetries) :
    taskLoop provider maxRetries retries =
      { ok := false, attempts := 1, delays := 0 } := by
  rw [taskLoop, if_pos hr, hp, if_neg (by simp), if_neg hnext]

/-- Full characterization of the retry loop from any starting `retries`
value within the budget. -/
theorem taskLoop_characterization (provider : Nat → Bool) (maxRetries : Nat) :
    ∀ retries, retries ≤ maxRetries →
      ((taskLoop provider maxRetries retries).ok = false ↔
        ∀ i, retries ≤ i → i ≤ maxRetries → provider i = false) ∧
      ((taskLoop provider maxRetries retries).ok = false →
        (taskLoop provider maxRetries retries).attempts = maxRetries + 1 - retries ∧
        (taskLoop provider maxRetries retries).delays = maxRetries - retries) ∧
      (∀ i, retries ≤ i → i ≤ maxRetries → provider i = true →
        (∀ j, retries ≤ j → j < i → provider j = false) →
        (taskLoop provider maxRetries retries).ok = true ∧
        (taskLoop provider maxRetries retries).attempts = i + 1 - retries ∧
        (taskLoop provider maxRetries retries).delays = i - retries) := by
  have key : ∀ fuel retries, maxRetries + 1 - retries ≤ fuel →
      retries ≤ maxRetries →
      ((taskLoop provider maxRetries retries).ok = false ↔
        ∀ i, retries ≤ i → i ≤ maxRetries → provider i = false) ∧
      ((taskLoop provider maxRetries retries).ok = false →
        (taskLoop provider maxRetries retries).attempts = maxRetries + 1 - retries ∧
        (taskLoop provider maxRetries retries).delays = maxRetries - retries) ∧
      (∀ i, retries ≤ i → i ≤ maxRetries → provider i = true →
        (∀ j, retries ≤ j → j < i → provider j = false) →
        (taskLoop provider maxRetries retries).ok = true ∧
        (taskLoop provider maxRetries retries).attempts = i + 1 - retries ∧
        (taskLoop provider maxRetries retries).delays = i - retries) := by
    intro fuel
    induction fuel with
    | zero => intro retries hf hr; omega
    | succ fuel ih =>
      intro retries hf hr
      cases hp : provider retries with
      | true =>
        rw [taskLoop_eq_success hr hp]
        refine ⟨?_, ?_, ?_⟩
        · constructor
          · intro h
            simp at h
          · intro hall
            exact absurd hp (by simp [hall retries le_rfl hr])
        · intro h
          simp at h
        · intro i hi1 hi2 hpi hmin
          rcases Nat.lt_or_ge retries i with hlt | hge
          · exact absurd hp (by simp [hmin retries le_rfl hlt])
          · have hi : i = retries := by omega
            subst hi
            refine ⟨rfl, ?_, ?_⟩
            · show (1 : Nat) = i + 1 - i
              omega
            · show (0 : Nat) = i - i
              omega
      | false =>
        by_cases hnext : retries + 1 ≤ maxRetries
        · rw [taskLoop_eq_retry hp hnext]
          obtain ⟨iff1, fail1, succ1⟩ := ih (retries + 1) (by omega) hnext
          refine ⟨?_, ?_, ?_⟩
          · constructor
            · intro hok i hi1 hi2
              have hok' : (taskLoop provider maxRetries (retries + 1)).ok = false := hok
              rcases Nat.lt_or_ge retries i with hlt | hge
              · exact iff1.mp hok' i (by omega) hi2
              · have hi : i = retries := by omega
                subst hi
                exact hp
            · intro hall
              show (taskLoop provider maxRetries (retries + 1)).ok = false
              exact iff1.mpr fun i hi1 hi2 => hall i (by omega) hi2
          · intro hok
            have hok' : (taskLoop provider maxRetries (retries + 1)).ok = false := hok
            obtain ⟨ha, hd⟩ := fail1 hok'
            constructor
            · show (taskLoop provider maxRetries (retries + 1)).attempts + 1 =
                maxRetries + 1 - retries
              omega
            · show (taskLoop provider maxRetries (retries + 1)).delays + 1 =
                maxRetries - retries
              omega
          · intro i hi1 hi2 hpi hmin
            have hne : i ≠ retries := by
              intro hc
              rw [hc, hp] at hpi
              cases hpi
            obtain ⟨hok, ha, hd⟩ := succ1 i (by omega) hi2 hpi
              (fun j hj1 hj2 => hmin j (by omega) hj2)
            refine ⟨?_, ?_, ?_⟩
            · show (taskLoop provider maxRetries (retries + 1)).ok = true
              exact hok
            · show (taskLoop provider maxRetries (retries + 1)).attempts + 1 =
                i + 1 - retries
              omega
            · show (taskLoop provider maxRetries (retries + 1)).delays + 1 =
                i - retries
              omega
        · rw [taskLoop_eq_exhaust hr hp hnext]
          refine ⟨?_, ?_, ?_⟩
          · constructor
            · intro _ i hi1 hi2
              have hi : i = retries := by omega
              subst hi
              exact hp
            · intro _
              rfl
          · intro _
            constructor
            · show (1 : Nat) = maxRetries + 1 - retries
              omega
            · show (0 : Nat) = maxRetries - retries
              omega
          · intro i hi1 hi2 hpi hmin
            have hi : i = retries := by omega
            subst hi
            rw [hp] at hpi
            cases hpi
  intro retries hr
  exact key (maxRetries + 1 - retries) retries le_rfl hr

/-- C4: a task is marked permanently failed (its error rethrown) only
after the provider call has been attempted exactly `maxRetries + 1`
times, each non-final failed attempt being followed by one `retryDelay`
pause; if an attempt succeeds, no further attempts are made — the first
successful attempt `i` ends the loop after `i + 1` attempts and `i`
pauses. -/
theorem executeTask_retry_policy (provider : Nat → Bool) (maxRetries : Nat) :
    ((executeTask provider maxRetries).ok = false ↔
      ∀ i, i ≤ maxRetries → provider i = false) ∧
    ((executeTask provider maxRetries).ok = false →
      (executeTask provider maxRetries).attempts = maxRetries + 1 ∧
      (executeTask provider maxRetries).delays = maxRetries) ∧
    (∀ i, i ≤ maxRetries → provider i = true →
      (∀ j, j < i → provider j = false) →
      (executeTask provider maxRetries).ok = true ∧
      (executeTask provider maxRetries).attempts = i + 1 ∧
      (executeTask provider maxRetries).delays = i) := by
  obtain ⟨hiff, hfail, hsucc⟩ :=
    taskLoop_characterization provider maxRetries 0 (Nat.zero_le _)
  refine ⟨?_, ?_, ?_⟩
  · rw [show executeTask provider maxRetries =
      taskLoop provider maxRetries 0 from rfl, hiff]
    exact ⟨fun h i hi => h i (Nat.zero_le _) hi, fun h i _ hi => h i hi⟩
  · intro hok
    have hok' : (taskLoop provider maxRetries 0).ok = false := hok
    obtain ⟨ha, hd⟩ := hfail hok'
    constructor
    · show (taskLoop provider maxRetries 0).attempts = maxRetries + 1
      omega
    · show (taskLoop provider maxRetries 0).delays = maxRetries
      omega
  · intro i hi hpi hmin
    obtain ⟨hok, ha, hd⟩ :=
      hsucc i (Nat.zero_le _) hi hpi fun j _ hj => hmin j hj
    refine ⟨hok, ?_, ?_⟩
    · show (taskLoop provider maxRetries 0).attempts = i + 1
      omega
    · show (taskLoop provider maxRetries 0).delays = i
      omega

/-- Witness for C4: a provider that fails twice then succeeds on the
third attempt, under `maxRetries = 5`. -/
theorem executeTask_retry_policy_witness :
    (executeTask (fun i => decide (i = 2)) 5).ok = true ∧
    (executeTask (fun i => decide (i = 2)) 5).attempts = 3 ∧
    (executeTask (fun i => decide (i = 2)) 5).delays = 2 :=
  (executeTask_retry_policy (fun i => decide (i = 2)) 5).2.2 2 (by decide)
    (by decide) (fun j hj => by
      simp only [decide_eq_false_iff_not]
      omega)

/-! ### Scheduler: windowed concurrency -/

theorem startsIn_map_start (l : List Nat) : startsIn (l.map Ev.start) = l.length := by
  unfold startsIn
  rw [List.countP_map]
  exact List.countP_eq_length.mpr fun a _ => rfl

theorem settlesIn_map_start (l : List Nat) : settlesIn (l.map Ev.start) = 0 := by
  unfold settlesIn
  rw [List.countP_map]
  simp [List.countP_eq_zero]

theorem startsIn_map_settle (l : List Nat) : startsIn (l.map Ev.settle) = 0 := by
  unfold startsIn
  rw [List.countP_map]
  simp [List.countP_eq_zero]

theorem settlesIn_map_settle (l : List Nat) :
    settlesIn (l.map Ev.settle) = l.length := by
  unfold settlesIn
  rw [List.countP_map]
  exact List.countP_eq_length.mpr fun a _ => rfl

theorem startsIn_append (p q : List Ev) :
    startsIn (p ++ q) = startsIn p + startsIn q :=
  List.countP_append _ _ _

theorem settlesIn_append (p q : List Ev) :
    settlesIn (p ++ q) = settlesIn p + settlesIn q :=
  List.countP_append _ _ _

/-- Any prefix of one window's trace has at most `chunk.length` more
starts than settles. -/
theorem windowTrace_prefix_bound {chunk ord : List Nat} {c : Nat}
    (hlen : chunk.length ≤ c) :
    ∀ p q, windowTrace chunk ord = p ++ q → startsIn p ≤ settlesIn p + c := by
  intro p q hpq
  unfold windowTrace at hpq
  rcases List.append_eq_append_iff.mp hpq.symm with ⟨a, ha1, _⟩ | ⟨a, ha1, ha2⟩
  · -- p is a prefix of the start block
    have : startsIn (chunk.map Ev.start) = startsIn p + startsIn a := by
      rw [ha1, startsIn_append]
    have hs := startsIn_map_start chunk
    omega
  · -- p = start block ++ prefix of the settle block
    have hp : startsIn p = chunk.length + startsIn a := by
      rw [ha1, startsIn_append, startsIn_map_start]
    have hmem : startsIn (ord.map Ev.settle) = startsIn a + startsIn q := by
      rw [ha2, startsIn_append]
    have hz := startsIn_map_settle ord
    omega

theorem schedTrace_nil (orders : List (List Nat)) :
    schedTrace [] orders = [] := by
  simp [schedTrace]

theorem schedTrace_cons (ch ord : List Nat) (chunks orders : List (List Nat)) :
    schedTrace (ch :: chunks) (ord :: orders) =
      windowTrace ch ord ++ schedTrace chunks orders := by
  simp [schedTrace]

/-- Any prefix of the whole scheduler trace has at most `c` more starts
than settles, provided every window holds at most `c` tasks and each
window's settlements are a permutation of its launches. -/
theorem schedTrace_prefix_bound {c : Nat} {chunks orders : List (List Nat)}
    (hf : List.Forall₂ List.Perm chunks orders)
    (hlen : ∀ ch ∈ chunks, ch.length ≤ c) :
    ∀ p q, schedTrace chunks orders = p ++ q → startsIn p ≤ settlesIn p + c := by
  induction hf with
  | nil =>
    intro p q hpq
    rw [schedTrace_nil] at hpq
    have hp : p = [] := by
      cases p with
      | nil => rfl
      | cons hd tl => simp at hpq
    subst hp
    simp [startsIn, settlesIn]
  | @cons ch ord chunks orders hperm htail ih =>
    intro p q hpq
    rw [schedTrace_cons] at hpq
    rcases List.append_eq_append_iff.mp hpq.symm with ⟨a, ha1, _⟩ | ⟨a, ha1, ha2⟩
    · exact windowTrace_prefix_bound (hlen ch (by simp)) p a ha1
    · have hp1 : startsIn p = startsIn (windowTrace ch ord) + startsIn a := by
        rw [ha1, startsIn_append]
      have hp2 : settlesIn p = settlesIn (windowTrace ch ord) + settlesIn a := by
        rw [ha1, settlesIn_append]
      have hws : startsIn (windowTrace ch ord) = ch.length := by
        unfold windowTrace
        rw [startsIn_append, startsIn_map_start, startsIn_map_settle]
        omega
      have hwt : settlesIn (windowTrace ch ord) = ch.length := by
        unfold windowTrace
        rw [settlesIn_append, settlesIn_map_start, settlesIn_map_settle,
          hperm.length_eq]
        omega
      have hrec := ih (fun x hx => hlen x (by simp [hx])) a q ha2
      omega

theorem forall2_getElem {α β : Type} {R : α → β → Prop} :
    ∀ {l1 : List α} {l2 : List β}, List.Forall₂ R l1 l2 →
      ∀ (i : Nat) (x : α), l1[i]? = some x →
        ∃ y, l2[i]? = some y ∧ R x y := by
  intro l1 l2 h
  induction h with
  | nil => intro i x hx; simp at hx
  | @cons a b l1 l2 hr ht ih =>
    intro i x hx
    cases i with
    | zero =>
      rw [List.getElem?_cons_zero] at hx
      cases hx
      exact ⟨b, List.getElem?_cons_zero, hr⟩
    | succ j =>
      rw [List.getElem?_cons_succ] at hx
      obtain ⟨y, hy, hxy⟩ := ih j x hx
      exact ⟨y, by rw [List.getElem?_cons_succ]; exact hy, hxy⟩

/-- A start event in a trace names a task launched by one of its windows. -/
theorem start_mem_schedTrace {y : Nat} :
    ∀ {chunks orders : List (List Nat)}, List.Forall₂ List.Perm chunks orders →
      Ev.start y ∈ schedTrace chunks orders → ∃ ch ∈ chunks, y ∈ ch := by
  intro chunks orders h
  induction h with
  | nil => rw [schedTrace_nil]; simp
  | @cons ch ord chunks orders hperm htail ih =>
    intro hmem
    rw [schedTrace_cons] at hmem
    rcases List.mem_append.mp hmem with hin | hin
    · unfold windowTrace at hin
      rcases List.mem_append.mp hin with hin | hin
      · obtain ⟨z, hz, hzy⟩ := List.mem_map.mp hin
        cases hzy
        exact ⟨ch, by simp, hz⟩
      · obtain ⟨z, hz, hzy⟩ := List.mem_map.mp hin
        cases hzy
    · obtain ⟨ch', hch', hy⟩ := ih hin
      exact ⟨ch', by simp [hch'], hy⟩

theorem schedTrace_split (n : Nat) (chunks orders : List (List Nat)) :
    schedTrace chunks orders =
      schedTrace (chunks.take n) (orders.take n) ++
        schedTrace (chunks.drop n) (orders.drop n) := by
  unfold schedTrace
  rw [← List.flatten_append, ← List.take_zipWith, ← List.drop_zipWith,
    List.take_append_drop]

/-- The barrier between consecutive windows: the trace splits so that all
settlements of window `i` come before the split, and no launch of window
`i + 1` occurs before it. -/
theorem schedTrace_barrier {chunks orders : List (List Nat)}
    (hf : List.Forall₂ List.Perm chunks orders)
    (hdisj : List.Pairwise List.Disjoint chunks)
    (i : Nat) (ch1 ch2 : List Nat)
    (h1 : chunks[i]? = some ch1) (h2 : chunks[i + 1]? = some ch2) :
    ∃ t1 t2, schedTrace chunks orders = t1 ++ t2 ∧
      (∀ x ∈ ch1, Ev.settle x ∈ t1) ∧
      (∀ y ∈ ch2, Ev.start y ∉ t1) := by
  refine ⟨schedTrace (chunks.take (i + 1)) (orders.take (i + 1)),
    schedTrace (chunks.drop (i + 1)) (orders.drop (i + 1)),
    schedTrace_split (i + 1) chunks orders, ?_, ?_⟩
  · intro x hx
    obtain ⟨ord1, hord1, hperm1⟩ := forall2_getElem hf i ch1 h1
    have hz : (List.zipWith windowTrace (chunks.take (i + 1))
        (orders.take (i + 1)))[i]? = some (windowTrace ch1 ord1) := by
      rw [List.getElem?_zipWith, List.getElem?_take, if_pos (by omega),
        List.getElem?_take, if_pos (by omega), h1, hord1]
    have hmem : Ev.settle x ∈ windowTrace ch1 ord1 := by
      unfold windowTrace
      exact List.mem_append.mpr
        (Or.inr (List.mem_map_of_mem _ (hperm1.mem_iff.mp hx)))
    exact List.mem_flatten.mpr ⟨_, List.getElem?_mem hz, hmem⟩
  · intro y hy hstart
    have hf1 : List.Forall₂ List.Perm (chunks.take (i + 1))
        (orders.take (i + 1)) := List.forall₂_take _ hf
    obtain ⟨ch, hch, hych⟩ := start_mem_schedTrace hf1 hstart
    have hch2 : ch2 ∈ chunks.drop (i + 1) := by
      have hd0 : (chunks.drop (i + 1))[0]? = some ch2 := by
        rw [List.getElem?_drop]
        simpa using h2
      exact List.getElem?_mem hd0
    have hsplit := List.pairwise_append.mp
      ((List.take_append_drop (i + 1) chunks).symm ▸ hdisj)
    exact hsplit.2.2 ch hch ch2 hch2 hych hy

/-- C3: for any queue of tasks and any `languageConcurrency ≥ 1`, in
every possible execution trace of `processTasks` — windows of
`languageConcurrency` tasks launched together, settling in any order,
with an `await Promise.allSettled` barrier between windows — the number
of tasks in flight (started but not settled) never exceeds
`languageConcurrency`, and no task of window `i + 1` is started until
every task of window `i` has settled. -/
theorem scheduler_window_policy (tasks : List Nat) (c : Nat)
    (settleOrders : List (List Nat)) (hc : 1 ≤ c)
    (horders : List.Forall₂ List.Perm (chunkList c tasks) settleOrders)
    (hnodup : tasks.Nodup) :
    (∀ p q, schedTrace (chunkList c tasks) settleOrders = p ++ q →
      startsIn p ≤ settlesIn p + c) ∧
    (∀ (i : Nat) (ch1 ch2 : List Nat),
      (chunkList c tasks)[i]? = some ch1 →
      (chunkList c tasks)[i + 1]? = some ch2 →
      ∃ t1 t2, schedTrace (chunkList c tasks) settleOrders = t1 ++ t2 ∧
        (∀ x ∈ ch1, Ev.settle x ∈ t1) ∧
        (∀ y ∈ ch2, Ev.start y ∉ t1)) := by
  constructor
  · exact schedTrace_prefix_bound horders
      fun ch hch => chunkList_mem_length_le hc hch
  · intro i ch1 ch2 h1 h2
    have hdisj : List.Pairwise List.Disjoint (chunkList c tasks) := by
      have hfl : (chunkList c tasks).flatten.Nodup := by
        rw [chunkList_flatten hc]
        exact hnodup
      exact (List.nodup_flatten.mp hfl).2
    exact schedTrace_barrier horders hdisj i ch1 ch2 h1 h2

/-- Witness for C3: three tasks under concurrency 2, the first window
settling in reverse order. -/
theorem scheduler_window_policy_witness :
    (∀ p q, schedTrace (chunkList 2 [0, 1, 2]) [[1, 0], [2]] = p ++ q →
      startsIn p ≤ settlesIn p + 2) ∧
    (∀ (i : Nat) (ch1 ch2 : List Nat),
      (chunkList 2 [0, 1, 2])[i]? = some ch1 →
      (chunkList 2 [0, 1, 2])[i + 1]? = some ch2 →
      ∃ t1 t2, schedTrace (chunkList 2 [0, 1, 2]) [[1, 0], [2]] = t1 ++ t2 ∧
        (∀ x ∈ ch1, Ev.settle x ∈ t1) ∧
        (∀ y ∈ ch2, Ev.start y ∉ t1)) := by
  have hch : chunkList 2 [0, 1, 2] = [[0, 1], [2]] := by
    rw [chunkList_cons (by omega) (by decide),
      show List.drop 2 [0, 1, 2] = [2] from rfl,
      chunkList_cons (by omega) (by decide),
      show List.drop 2 [2] = ([] : List Nat) from rfl, chunkList_nil]
    decide
  exact scheduler_window_policy [0, 1, 2] 2 [[1, 0], [2]] (by omega)
    (by rw [hch]; decide) (by decide)

/-! ### Scheduler: failure isolation and aggregation -/

theorem foldl_append_eq_flatten {α β : Type} (f : α → List β) :
    ∀ (L : List α) (init : List β),
      L.foldl (fun acc x => acc ++ f x) init = init ++ (L.map f).flatten := by
  intro L
  induction L with
  | nil => intro init; simp
  | cons hd tl ih =>
    intro init
    rw [List.foldl_cons, ih, List.map_cons, List.flatten_cons,
      List.append_assoc]

/-- Lemma that `processTasks` settles the whole queue, in order, one outcome per
task: chunking then settling chunk by chunk is the same as settling each
task. -/
theorem processTasksResults_eq_map (c m : Nat) (tasks : List (Nat → Bool))
    (hc : 1 ≤ c) :
    processTasksResults c m tasks = tasks.map (settleTask m) := by
  unfold processTasksResults
  rw [foldl_append_eq_flatten, List.nil_append, ← List.map_flatten,
    chunkList_flatten hc]

/-- C5: a task that exhausts its retries is captured as a rejected
outcome (never thrown to the caller): `processTasks` is total, settles
every task of the queue in order regardless of failures, and the run
summary's success and failure tallies always add up to the number of
tasks. -/
theorem processTasks_failure_isolation (c m : Nat)
    (tasks : List (Nat → Bool)) (hc : 1 ≤ c) :
    processTasksResults c m tasks = tasks.map (settleTask m) ∧
    (processTasksResults c m tasks).length = tasks.length ∧
    summarySuccessful (processTasksResults c m tasks) +
      summaryFailed (processTasksResults c m tasks) = tasks.length ∧
    (∀ provider, settleTask m provider = .rejected ↔
      (executeTask provider m).ok = false) := by
  have hmap := processTasksResults_eq_map c m tasks hc
  have hlen : (processTasksResults c m tasks).length = tasks.length := by
    rw [hmap, List.length_map]
  refine ⟨hmap, hlen, ?_, ?_⟩
  · have hle : summarySuccessful (processTasksResults c m tasks) ≤
        (processTasksResults c m tasks).length :=
      List.length_filter_le _ _
    unfold summaryFailed
    omega
  · intro provider
    unfold settleTask
    by_cases hok : (executeTask provider m).ok
    · simp [hok]
    · simp [hok]

/-- The two concrete tasks of the C5 witness: one that always succeeds
and one that always fails. -/
def tasksW5 : List (Nat → Bool) := [fun _ => true, fun _ => false]

/-- Witness for C5: two tasks, one always failing, under concurrency 1. -/
theorem processTasks_failure_isolation_witness :
    processTasksResults 1 0 tasksW5 = tasksW5.map (settleTask 0) ∧
    (processTasksResults 1 0 tasksW5).length = tasksW5.length ∧
    summarySuccessful (processTasksResults 1 0 tasksW5) +
      summaryFailed (processTasksResults 1 0 tasksW5) = tasksW5.length ∧
    (∀ provider, settleTask 0 provider = .rejected ↔
      (executeTask provider 0).ok = false) :=
  processTasks_failure_isolation 1 0 tasksW5 (by omega)

/-! ### Result merger -/

theorem mergeStep_none {c : Context} {p : String × String}
    (h : lookupA c p.1 = none) : mergeStep c p = c := by
  unfold mergeStep
  rw [h]

theorem mergeStep_some {c : Context} {p : String × String} {e : Entry}
    (h : lookupA c p.1 = some e) :
    mergeStep c p = updateA c p.1 { e with msgstr := [jsTrimVal p.2] } := by
  unfold mergeStep
  rw [h]

theorem lookupA_mergeStep_ne {c : Context} {k : String} (p : String × String)
    (h : k ≠ p.1) : lookupA (mergeStep c p) k = lookupA c k := by
  cases hl : lookupA c p.1 with
  | none => rw [mergeStep_none hl]
  | some e => rw [mergeStep_some hl, lookupA_updateA_ne _ h]

theorem lookupA_foldl_mergeStep_not_mem :
    ∀ {obj : List (String × String)} {k : String},
      k ∉ obj.map Prod.fst → ∀ c : Context,
      lookupA (obj.foldl mergeStep c) k = lookupA c k := by
  intro obj
  induction obj with
  | nil => intro k _ c; rfl
  | cons hd tl ih =>
    intro k h c
    have hk : k ≠ hd.1 := by
      intro hc
      exact h (by simp [hc])
    have htl : k ∉ tl.map Prod.fst := by
      intro hm
      exact h (by simp [hm])
    rw [List.foldl_cons, ih htl, lookupA_mergeStep_ne hd hk]

theorem lookupA_foldl_mergeStep_mem :
    ∀ {obj : List (String × String)}, (obj.map Prod.fst).Nodup →
      ∀ {msgid tr : String}, (msgid, tr) ∈ obj → ∀ c : Context,
      (lookupA c msgid = none →
        lookupA (obj.foldl mergeStep c) msgid = none) ∧
      (∀ e, lookupA c msgid = some e →
        lookupA (obj.foldl mergeStep c) msgid =
          some { e with msgstr := [jsTrimVal tr] }) := by
  intro obj
  induction obj with
  | nil => intro _ msgid tr hmem; simp at hmem
  | cons hd tl ih =>
    intro hnodup msgid tr hmem c
    have hnd : hd.1 ∉ tl.map Prod.fst := by
      rw [List.map_cons, List.nodup_cons] at hnodup
      exact hnodup.1
    have hndtl : (tl.map Prod.fst).Nodup := by
      rw [List.map_cons, List.nodup_cons] at hnodup
      exact hnodup.2
    rcases List.mem_cons.mp hmem with heq | hmem'
    · subst heq
      constructor
      · intro hnone
        rw [List.foldl_cons, lookupA_foldl_mergeStep_not_mem hnd,
          mergeStep_none hnone]
        exact hnone
      · intro e hsome
        rw [List.foldl_cons, lookupA_foldl_mergeStep_not_mem hnd,
          mergeStep_some hsome]
        exact lookupA_updateA_self hsome _
    · have hne : msgid ≠ hd.1 := by
        intro hc
        subst hc
        have hm2 : ((hd.1, tr)).1 ∈ List.map Prod.fst tl :=
          List.mem_map_of_mem Prod.fst hmem'
        exact hnd hm2
      have hstep : lookupA (mergeStep c hd) msgid = lookupA c msgid :=
        lookupA_mergeStep_ne hd hne
      obtain ⟨ihn, ihs⟩ := ih hndtl hmem' (mergeStep c hd)
      constructor
      · intro hnone
        rw [List.foldl_cons]
        exact ihn (by rw [hstep]; exact hnone)
      · intro e hsome
        rw [List.foldl_cons]
        exact ihs e (by rw [hstep]; exact hsome)

/-- C7: merging a successful task result mutates only the entries whose
keys appear in the returned mapping; every other entry and context is
unchanged; each mutated entry's `msgstr` becomes the single returned
string trimmed of surrounding whitespace (other entry fields preserved);
a whitespace-only or empty returned string is stored as the empty string;
returned keys with no corresponding entry are ignored without error. -/
theorem updateResults_frame (translationPo : Catalog) (contextKey : String)
    (object : List (String × String)) (ctx : Context)
    (hctx : lookupA translationPo contextKey = some ctx)
    (hnodup : (object.map Prod.fst).Nodup) :
    (∀ ck, ck ≠ contextKey →
      lookupA (_updateTranslationPoWithResults translationPo contextKey object)
        ck = lookupA translationPo ck) ∧
    (∀ tr, tr.trim = "" → jsTrimVal tr = "") ∧
    (∃ ctx',
      lookupA (_updateTranslationPoWithResults translationPo contextKey object)
        contextKey = some ctx' ∧
      (∀ msgid, msgid ∉ object.map Prod.fst →
        lookupA ctx' msgid = lookupA ctx msgid) ∧
      (∀ msgid tr, (msgid, tr) ∈ object →
        (lookupA ctx msgid = none → lookupA ctx' msgid = none) ∧
        (∀ e, lookupA ctx msgid = some e →
          lookupA ctx' msgid = some { e with msgstr := [jsTrimVal tr] }))) := by
  unfold _updateTranslationPoWithResults
  cases hl : lookupA translationPo contextKey with
  | none => rw [hl] at hctx; cases hctx
  | some ctx0 =>
    rw [hl] at hctx
    cases hctx
    refine ⟨?_, ?_, object.foldl mergeStep ctx, lookupA_updateA_self hl _,
      ?_, ?_⟩
    · intro ck hck
      exact lookupA_updateA_ne _ hck
    · intro tr htr
      unfold jsTrimVal
      by_cases he : tr = ""
      · rw [if_pos he]
      · rw [if_neg he]
        exact htr
    · intro msgid hmsgid
      exact lookupA_foldl_mergeStep_not_mem hmsgid ctx
    · intro msgid tr hmem
      exact lookupA_foldl_mergeStep_mem hnodup hmem ctx

/-- The concrete context of the C7 witness. -/
def ctxW7 : Context := [("a", ⟨[""], "m"⟩), ("b", ⟨["x"], "n"⟩)]

/-- The concrete returned mapping of the C7 witness: a trimmed
translation for `a` and a key `zz` absent from the context. -/
def objW7 : List (String × String) := [("a", " hi "), ("zz", "q")]

/-- Witness for C7 at the concrete catalog `[("", ctxW7)]`. -/
theorem updateResults_frame_witness :
    (∀ ck, ck ≠ "" →
      lookupA (_updateTranslationPoWithResults [("", ctxW7)] "" objW7) ck =
        lookupA [("", ctxW7)] ck) ∧
    (∀ tr, tr.trim = "" → jsTrimVal tr = "") ∧
    (∃ ctx',
      lookupA (_updateTranslationPoWithResults [("", ctxW7)] "" objW7) "" =
        some ctx' ∧
      (∀ msgid, msgid ∉ objW7.map Prod.fst →
        lookupA ctx' msgid = lookupA ctxW7 msgid) ∧
      (∀ msgid tr, (msgid, tr) ∈ objW7 →
        (lookupA ctxW7 msgid = none → lookupA ctx' msgid = none) ∧
        (∀ e, lookupA ctxW7 msgid = some e →
          lookupA ctx' msgid = some { e with msgstr := [jsTrimVal tr] }))) :=
  updateResults_frame [("", ctxW7)] "" objW7 ctxW7 (by decide) (by decide)

/-- C10: if the context key of a task is absent from the catalog's
translations table, merging returns the catalog unchanged, without
error — the whole result is dropped rather than creating the context. -/
theorem updateResults_missing_context (translationPo : Catalog)
    (contextKey : String) (object : List (String × String))
    (h : lookupA translationPo contextKey = none) :
    _updateTranslationPoWithResults translationPo contextKey object =
      translationPo := by
  unfold _updateTranslationPoWithResults
  rw [h]

/-- The concrete context of the C10 witness. -/
def ctxW10 : Context := [("x", ⟨["y"], "m"⟩)]

/-- Witness for C10: a result for the absent context `missing` is
silently dropped. -/
theorem updateResults_missing_context_witness :
    _updateTranslationPoWithResults [("", ctxW10)] "missing"
      [("a", "hello")] = [("", ctxW10)] :=
  updateResults_missing_context [("", ctxW10)] "missing" [("a", "hello")]
    (by decide)

/-! ### Backlog extraction of empty translations -/

/-- An entry pending translation before the C9 merge. -/
def pendingEntryW9 : Entry := ⟨[], "m"⟩

/-- The same entry after the provider returned the empty string. -/
def entryW9 : Entry := ⟨[""], "m"⟩

/-- The C9 catalog before the merge. -/
def poW9 : Catalog := [("", [("greeting", pendingEntryW9)])]

/-- The C9 context after the merge. -/
def ctxW9 : Context := [("greeting", entryW9)]

/-- Counterexample to C9: when the provider returns `""` for a key, the
merged form is `[""]` — but `_findEntriesNeedingTranslation` counts
`msgstr = [""]` as pending (src/linguci.js line 977), so the entry DOES
reappear in the next backlog extraction, contradicting the claim that it
must not. -/
theorem emptyTranslation_reappears_counterexample :
    _updateTranslationPoWithResults poW9 "" [("greeting", "")] =
      [("", ctxW9)] ∧
    _findEntriesNeedingTranslation [("", ctxW9)] = [("", ctxW9)] := by
  constructor
  · decide
  · decide

/-- C9 amended: an entry whose merged translated form is the single empty
string is still in the pending-normalized state, and DOES reappear in a
subsequent backlog extraction over the merged catalog — translated-to-empty
is indistinguishable from pending (spec §9). -/
theorem emptyTranslation_reappears (translationPo : Catalog)
    (ck : String) (ctx : Context) (msgid : String) (e : Entry)
    (hck : (ck, ctx) ∈ translationPo) (hmem : (msgid, e) ∈ ctx)
    (hhdr : msgid ≠ "") (hpend : e.msgstr = [""]) :
    ∃ bctx, (ck, bctx) ∈ _findEntriesNeedingTranslation translationPo ∧
      (msgid, e) ∈ bctx := by
  have hin : (msgid, e) ∈
      ctx.filter fun q => q.1 ≠ "" && needsTranslation q.2.msgstr := by
    refine List.mem_filter.mpr ⟨hmem, ?_⟩
    simp [needsTranslation, hpend, hhdr]
  refine ⟨ctx.filter fun q => q.1 ≠ "" && needsTranslation q.2.msgstr, ?_, hin⟩
  unfold _findEntriesNeedingTranslation
  refine List.mem_filter.mpr ⟨?_, ?_⟩
  · exact List.mem_map.mpr ⟨(ck, ctx), hck, rfl⟩
  · simp only [List.isEmpty_iff, decide_not]
    simp
    exact ⟨msgid, e, hmem, hhdr, by simp [needsTranslation, hpend]⟩

/-- Witness for the amended C9 at the concrete merged catalog. -/
theorem emptyTranslation_reappears_witness :
    ∃ bctx, ("", bctx) ∈ _findEntriesNeedingTranslation [("", ctxW9)] ∧
      ("greeting", entryW9) ∈ bctx :=
  emptyTranslation_reappears [("", ctxW9)] "" ctxW9 "greeting" entryW9
    (by decide) (by decide) (by decide) (by decide)
